import Mathlib

/-!
Verification of the chess-puzzle core of `chess_puzzle.py`
(CSM090 Principles of Programming, Coursework Final).

The Python program is shallowly embedded:

* a Python `Piece` (class `King` / `Bishop`) becomes a `Piece` structure
  carrying a kind tag, its coordinates (`Int`, since Python integers are
  unbounded and signed) and a side (`Bool`, `true` = White);
* a `Board = tuple[int, list[Piece]]` becomes `Int × List Piece`;
* functions that can raise (`piece_at`, `is_check`, the move predicates that
  call `is_check`) return `Option` values, `none` modelling the raised
  exception;
* the text-file codec works on lines of character codepoints
  (`List Nat`); the file/`readlines` mechanics themselves are the external
  collaborator and are modelled at the list-of-lines level.

Python's `piece != self` / `list.remove` compare by object identity; no
`__eq__` is defined on pieces, and on boards satisfying the
distinct-positions invariant identity removal coincides with removal of the
(unique) structurally equal element, which is how `move_to` is embedded.
-/

namespace ChessPuzzle

inductive PieceKind where
  | king
  | bishop
deriving DecidableEq, Repr

/-- A chess piece: discriminant, position `(pos_x, pos_y)` and side
(`true` = White, `false` = Black), as in class `Piece` and its two
subclasses `King` and `Bishop`. -/
structure Piece where
  kind : PieceKind
  pos_x : Int
  pos_y : Int
  side : Bool
deriving DecidableEq, Repr

/-- `Board = tuple[int, list[Piece]]`. -/
abbrev Board := Int × List Piece

/-- `is_piece_at(pos_X, pos_Y, B)`. -/
def is_piece_at (x y : Int) (B : Board) : Bool :=
  B.2.any (fun p => p.pos_x == x && p.pos_y == y)

/-- `piece_at(pos_X, pos_Y, B)`: the first piece of `B[1]` at the given
coordinates; `none` models the `ValueError` raised when there is none. -/
def piece_at (x y : Int) (B : Board) : Option Piece :=
  B.2.find? (fun p => p.pos_x == x && p.pos_y == y)

/-- The `while (x, y) != (pos_X, pos_Y)` loop of `Bishop.can_reach`: walk
`n` diagonal steps from `(x, y)` in direction `(sx, sy)`, failing if any
visited square is occupied.  The caller passes `n = dx - 1`, the number of
squares strictly between source and destination, which is exactly how many
iterations the Python loop performs when `dx = dy` and the steps point at
the destination. -/
def pathClear (B : Board) (x y sx sy : Int) : Nat → Bool
  | 0 => true
  | n + 1 =>
    if is_piece_at (x + sx) (y + sy) B then false
    else pathClear B (x + sx) (y + sy) sx sy n

/-- `step_x = 1 if pos_X > self.pos_x else -1` of `Bishop.can_reach`. -/
def stepDir (fromC toC : Int) : Int := if toC > fromC then 1 else -1

/-- `can_reach` of either piece class.  `Bishop.can_reach` checks bounds,
not-same-square, diagonality and an unblocked path; `King.can_reach` is
only the Chebyshev-distance test `dx <= 1 and dy <= 1` (the Python method
checks neither bounds nor dest ≠ current position). -/
def can_reach (p : Piece) (x y : Int) (B : Board) : Bool :=
  match p.kind with
  | .bishop =>
    if !(1 ≤ x && x ≤ B.1 && 1 ≤ y && y ≤ B.1) then false
    else if p.pos_x == x && p.pos_y == y then false
    else if (p.pos_x - x).natAbs != (p.pos_y - y).natAbs then false
    else
      pathClear B p.pos_x p.pos_y (stepDir p.pos_x x) (stepDir p.pos_y y)
        ((p.pos_x - x).natAbs - 1)
  | .king => (p.pos_x - x).natAbs ≤ 1 && (p.pos_y - y).natAbs ≤ 1

/-- The replacement piece appended by `move_to`: same kind and side as the
mover, at the destination. -/
def new_piece (p : Piece) (x y : Int) : Piece := ⟨p.kind, x, y, p.side⟩

/-- `move_to` of either piece class: drop the mover, drop the captured
piece at the destination if any, append the moved piece.  Python filters
and removes by object identity; here value equality is used (`filter`,
`List.erase`), which agrees with identity on boards whose pieces occupy
pairwise distinct positions. -/
def move_to (p : Piece) (x y : Int) (B : Board) : Board :=
  let new_pieces := B.2.filter (fun q => q ≠ p)
  let new_pieces :=
    if is_piece_at x y B then
      match piece_at x y B with
      | some target => new_pieces.erase target
      | none => new_pieces
    else new_pieces
  (B.1, new_pieces ++ [new_piece p x y])

/-- `is_check(side, B)`: `none` models the `ValueError` raised when `B`
holds no King of `side`; otherwise whether some opposing piece can reach
the first such King's square. -/
def is_check (side : Bool) (B : Board) : Option Bool :=
  match B.2.find? (fun q => q.kind == .king && q.side == side) with
  | none => none
  | some king =>
    some (B.2.any fun q => q.side != side && can_reach q king.pos_x king.pos_y B)

/-- The shared tail of both `can_move_to` methods: `if is_piece_at: if
piece_at(...).side == self.side: return False`. -/
def same_side_at (p : Piece) (x y : Int) (B : Board) : Bool :=
  if is_piece_at x y B then
    match piece_at x y B with
    | some q => q.side == p.side
    | none => false
  else false

/-- `can_move_to` of either piece class; `none` models a propagated
exception (only possible from the `is_check` call on the hypothetical
board).  The King method re-checks bounds, not-same-square and
`max(dx, dy) <= 1` itself; the Bishop method delegates those to
`can_reach`. -/
def can_move_to (p : Piece) (x y : Int) (B : Board) : Option Bool :=
  match p.kind with
  | .bishop =>
    if !(can_reach p x y B) then some false
    else if same_side_at p x y B then some false
    else (is_check p.side (move_to p x y B)).map (fun c => !c)
  | .king =>
    if !(1 ≤ x && x ≤ B.1 && 1 ≤ y && y ≤ B.1) then some false
    else if p.pos_x == x && p.pos_y == y then some false
    else if 1 < max (p.pos_x - x).natAbs (p.pos_y - y).natAbs then some false
    else if same_side_at p x y B then some false
    else (is_check p.side (move_to p x y B)).map (fun c => !c)

/-- The coordinates visited by `for x in range(1, B[0]+1): for y in
range(1, B[0]+1)`, in loop order. -/
def coordsList (n : Int) : List (Int × Int) :=
  (List.range n.toNat).flatMap fun i =>
    (List.range n.toNat).map fun j => (Int.ofNat i + 1, Int.ofNat j + 1)

/-- The inner double loop of `is_checkmate`/`is_stalemate`/
`find_black_move` for one piece: first `can_move_to` success wins, a raised
exception propagates. -/
def scanCoords (p : Piece) (B : Board) : List (Int × Int) → Option Bool
  | [] => some false
  | c :: rest =>
    match can_move_to p c.1 c.2 B with
    | none => none
    | some true => some true
    | some false => scanCoords p B rest

/-- The piece loop of `is_checkmate`/`is_stalemate`: does some piece of
`side` in the given list have a legal move on `B`? -/
def anyMove (side : Bool) (B : Board) : List Piece → Option Bool
  | [] => some false
  | p :: rest =>
    if p.side == side then
      match scanCoords p B (coordsList B.1) with
      | none => none
      | some true => some true
      | some false => anyMove side B rest
    else anyMove side B rest

/-- `is_checkmate(side, B)`. -/
def is_checkmate (side : Bool) (B : Board) : Option Bool :=
  match is_check side B with
  | none => none
  | some false => some false
  | some true => (anyMove side B B.2).map (fun m => !m)

/-- `is_stalemate(side, B)`. -/
def is_stalemate (side : Bool) (B : Board) : Option Bool :=
  match is_check side B with
  | none => none
  | some true => some false
  | some false => (anyMove side B B.2).map (fun m => !m)

/-!
The text codec.  Strings are modelled as lists of codepoints
(`List Nat`) over the ASCII alphabet, so `ord`/`chr` are the identity on
codepoints; Python's `str.lower`, `str.strip` and `int(...)` are modelled
on the ASCII range (Unicode case mappings, whitespace and digits are
outside the model).  `int(...)` is modelled in full within that range:
surrounding whitespace is stripped, an optional sign is accepted, and
single underscores are allowed between digits (`int("1_0") = 10`), while
leading, trailing or doubled underscores are rejected.
-/

/-- ASCII/`str.isspace` whitespace, the characters `str.strip` removes. -/
def isSpaceC (c : Nat) : Bool :=
  c == 32 || c == 9 || c == 10 || c == 13 || c == 11 || c == 12

def isDigitC (c : Nat) : Bool := 48 ≤ c && c ≤ 57

/-- `str.lower` on one codepoint, ASCII range. -/
def lowerC (c : Nat) : Nat := if 65 ≤ c && c ≤ 90 then c + 32 else c

/-- `str.strip()`: drop whitespace from both ends. -/
def strip (s : List Nat) : List Nat :=
  ((s.dropWhile isSpaceC).reverse.dropWhile isSpaceC).reverse

/-- Plain digit-run accumulator: the semantics of an underscore-free
digit string, used by the lemmas below to evaluate canonical numerals
(the output of `str` never contains underscores). -/
def parseDigitsGo (acc : Nat) : List Nat → Option Nat
  | [] => some acc
  | c :: cs => if isDigitC c then parseDigitsGo (acc * 10 + (c - 48)) cs else none

/-- The remainder of an `int(...)` numeral after an accepted digit:
further digits, with a single underscore allowed between two digits
(`int("1_0") = 10`; `"1__0"` and `"1_"` raise). -/
def parseDigitsRest (acc : Nat) : List Nat → Option Nat
  | [] => some acc
  | c :: cs =>
    if isDigitC c then parseDigitsRest (acc * 10 + (c - 48)) cs
    else if c = 95 then
      match cs with
      | [] => none
      | d :: cs2 =>
        if isDigitC d then parseDigitsRest (acc * 10 + (d - 48)) cs2 else none
    else none

/-- The digit part of an `int(...)` numeral: it must start with a digit
(an underscore may not lead, and the empty string raises), then
`parseDigitsRest`; `none` models the `ValueError`. -/
def parseDigits : List Nat → Option Nat
  | [] => none
  | c :: cs => if isDigitC c then parseDigitsRest (c - 48) cs else none

/-- `int(s)` after `int`'s own whitespace stripping: an optional sign
character directly followed by the digits. -/
def parseIntCore : List Nat → Option Int
  | [] => none
  | c :: ds =>
    if c = 45 then (parseDigits ds).map (fun n => -(n : Int))
    else if c = 43 then (parseDigits ds).map (fun n => (n : Int))
    else (parseDigits (c :: ds)).map (fun n => (n : Int))

/-- `int(s)`: strip surrounding whitespace, then parse an optionally
signed decimal numeral (single underscores allowed between digits);
`none` models the `ValueError`. -/
def parseInt (s : List Nat) : Option Int := parseIntCore (strip s)

/-- `str(n)` for a natural number: decimal digits, no leading zeros. -/
def natToChars (n : Nat) : List Nat :=
  if h : n < 10 then [48 + n] else natToChars (n / 10) ++ [48 + n % 10]
decreasing_by exact Nat.div_lt_self (by omega) (by omega)

/-- `str(i)` for a Python integer. -/
def intToChars (i : Int) : List Nat :=
  if i < 0 then 45 :: natToChars i.natAbs else natToChars i.toNat

/-- `location2index(loc)`: `x = ord(loc[0].lower()) - ord("a") + 1`,
`y = int(loc[1:])`.  `none` models the exception (empty string, or a
remainder `int` rejects); the lead character is NOT validated. -/
def location2index (loc : List Nat) : Option (Int × Int) :=
  match loc with
  | [] => none
  | c :: rest => (parseInt rest).map (fun y => (((lowerC c : Int) - 97) + 1, y))

/-- `index2location(x, y)` = `chr(x + ord("a") - 1) + str(y)`. -/
def index2location (x y : Int) : List Nat := (x + 96).toNat :: intToChars y

/-- `type(piece).__name__[0]`: `'K'` for a King, `'B'` for a Bishop. -/
def kindChar : PieceKind → Nat
  | .king => 75
  | .bishop => 66

/-- The token `save_board` writes for one piece. -/
def pieceToken (p : Piece) : List Nat :=
  kindChar p.kind :: index2location p.pos_x p.pos_y

/-- `", ".join(tokens)`. -/
def intercalateSep : List (List Nat) → List Nat
  | [] => []
  | [t] => t
  | t :: ts => t ++ 44 :: 32 :: intercalateSep ts

/-- Prefix one character onto the first token of a split result. -/
def consTok (c : Nat) : List (List Nat) → List (List Nat)
  | [] => [[c]]
  | t :: ts => (c :: t) :: ts

/-- `line.split(", ")`: greedy left-to-right scan for the two-character
separator; like Python's `split`, always yields at least one (possibly
empty) token. -/
def splitCS : List Nat → List (List Nat)
  | [] => [[]]
  | 44 :: 32 :: rest2 => [] :: splitCS rest2
  | c :: rest => consTok c (splitCS rest)

/-- One token of a piece line in `read_board`: `location2index` runs on
`piece[1:]` before the tag dispatch, an unrecognized tag contributes no
piece (it is silently skipped), `none` models a propagated exception. -/
def parseToken (side : Bool) (tok : List Nat) : Option (List Piece) :=
  match tok with
  | [] => none
  | t :: locChars =>
    match location2index locChars with
    | none => none
    | some (px, py) =>
      if t = 75 then some [⟨.king, px, py, side⟩]
      else if t = 66 then some [⟨.bishop, px, py, side⟩]
      else some []

/-- `for piece in line.strip().split(", ")` of `read_board`, in order. -/
def parseTokens (side : Bool) : List (List Nat) → Option (List Piece)
  | [] => some []
  | tok :: rest =>
    match parseToken side tok with
    | none => none
    | some ps => (parseTokens side rest).map (ps ++ ·)

/-- `for i, line in enumerate(lines[1:])` of `read_board`: blank lines are
skipped (but still counted by `i`), line index 0 parses as White, every
other line as Black. -/
def parseLines (i : Nat) : List (List Nat) → Option (List Piece)
  | [] => some []
  | line :: rest =>
    if strip line = [] then parseLines (i + 1) rest
    else
      match parseTokens (i == 0) (splitCS (strip line)) with
      | none => none
      | some ps => (parseLines (i + 1) rest).map (ps ++ ·)

/-- `read_board`, modelled on the list of lines of the file (the file
handle and `readlines` are the external collaborator). -/
def read_board (lines : List (List Nat)) : Option Board :=
  match lines with
  | [] => none
  | sizeLine :: rest =>
    match parseInt (strip sizeLine) with
    | none => none
    | some size => (parseLines 0 rest).map (fun ps => (size, ps))

/-- `save_board`, modelled as the list of lines it writes: the size, the
joined White tokens, the joined Black tokens. -/
def saveLines (B : Board) : List (List Nat) :=
  [intToChars B.1,
   intercalateSep ((B.2.filter (fun p => p.side)).map pieceToken),
   intercalateSep ((B.2.filter (fun p => !p.side)).map pieceToken)]

/-!  Concrete boards used by witnesses and counterexamples.  `mateBoard`
is the checkmate scenario of the spec (and of `test_is_checkmate1`). -/

def mateBoard : Board :=
  (5, [⟨.king, 2, 5, true⟩, ⟨.bishop, 5, 5, true⟩, ⟨.king, 2, 3, false⟩,
       ⟨.bishop, 5, 3, false⟩, ⟨.bishop, 1, 2, false⟩, ⟨.bishop, 3, 1, true⟩,
       ⟨.bishop, 4, 1, true⟩])

/-- The board of `test_king_can_move_to`: White King (2,2), Black Bishop
(3,3), Black King (5,5) on a 5×5 board. -/
def kingTestBoard : Board :=
  (5, [⟨.king, 2, 2, true⟩, ⟨.bishop, 3, 3, false⟩, ⟨.king, 5, 5, false⟩])

/-!  ## Basic lemmas about the board primitives -/

theorem is_piece_at_iff_exists (x y : Int) (B : Board) :
    is_piece_at x y B = true ↔ ∃ q ∈ B.2, q.pos_x = x ∧ q.pos_y = y := by
  simp [is_piece_at, List.any_eq_true]

theorem piece_at_eq_none_iff (x y : Int) (B : Board) :
    piece_at x y B = none ↔ is_piece_at x y B = false := by
  simp [piece_at, List.find?_eq_none, is_piece_at, List.any_eq_false]

theorem piece_at_isSome_iff (x y : Int) (B : Board) :
    (∃ q, piece_at x y B = some q) ↔ is_piece_at x y B = true := by
  rw [← Option.isSome_iff_exists, is_piece_at, piece_at]
  simp [List.find?_isSome, List.any_eq_true]

theorem piece_at_eq_some_facts {x y : Int} {B : Board} {q : Piece}
    (h : piece_at x y B = some q) : q ∈ B.2 ∧ q.pos_x = x ∧ q.pos_y = y := by
  refine ⟨List.mem_of_find?_eq_some h, ?_⟩
  have := List.find?_some h
  simpa using this

/-!  ## C2: King.can_reach -/

/-- C2 amended: `King.can_reach` is the Chebyshev-distance test alone,
with no same-square exclusion — the method is only `dx <= 1 and dy <= 1`,
so it also returns true at the King's own position. -/
theorem king_can_reach_chebyshev (p : Piece) (x y : Int) (B : Board)
    (hk : p.kind = .king) :
    (can_reach p x y B = true ↔
      max (p.pos_x - x).natAbs (p.pos_y - y).natAbs ≤ 1) := by
  rw [can_reach, hk]
  simp [Nat.max_le]

/-- C2 fails as stated: a King can "reach" its own square.  At the instance
King (2,2) on a board containing only it, `can_reach` returns `true`
although the destination equals the current position, so the claimed
equivalence with "dest ≠ current position ∧ Chebyshev ≤ 1" is false. -/
theorem king_can_reach_own_square_cex :
    ¬ (can_reach ⟨.king, 2, 2, true⟩ 2 2 (5, [⟨.king, 2, 2, true⟩]) = true ↔
        (((2 : Int), (2 : Int)) ≠ ((2 : Int), (2 : Int)) ∧
          max ((2 : Int) - 2).natAbs ((2 : Int) - 2).natAbs ≤ 1)) := by
  decide

/-- Witness for `king_can_reach_chebyshev` at a concrete King. -/
theorem king_can_reach_chebyshev_witness :
    can_reach ⟨.king, 2, 2, true⟩ 3 3 kingTestBoard = true ↔
      max ((2 : Int) - 3).natAbs ((2 : Int) - 3).natAbs ≤ 1 :=
  king_can_reach_chebyshev ⟨.king, 2, 2, true⟩ 3 3 kingTestBoard rfl

/-!  ## Decimal numerals: `str`/`int` round trip -/

theorem natToChars_ne_nil (n : Nat) : natToChars n ≠ [] := by
  rw [natToChars]
  split <;> simp

theorem natToChars_digits (n : Nat) :
    ∀ c ∈ natToChars n, 48 ≤ c ∧ c ≤ 57 := by
  induction n using Nat.strong_induction_on with
  | _ n ih =>
    rw [natToChars]
    split
    · next h => intro c hc; simp at hc; omega
    · next h =>
      intro c hc
      rw [List.mem_append] at hc
      rcases hc with hc | hc
      · exact ih (n / 10) (Nat.div_lt_self (by omega) (by omega)) c hc
      · simp at hc
        have : n % 10 < 10 := Nat.mod_lt _ (by omega)
        omega

theorem parseDigitsGo_append (acc : Nat) (s t : List Nat) :
    parseDigitsGo acc (s ++ t) =
      (parseDigitsGo acc s).bind (fun a => parseDigitsGo a t) := by
  induction s generalizing acc with
  | nil => simp [parseDigitsGo]
  | cons c cs ih =>
    simp only [List.cons_append, parseDigitsGo]
    split
    · exact ih _
    · simp

theorem parseDigitsGo_natToChars (n : Nat) :
    ∃ k, 0 < k ∧ ∀ acc, parseDigitsGo acc (natToChars n) = some (acc * k + n) := by
  induction n using Nat.strong_induction_on with
  | _ n ih =>
    rw [natToChars]
    split
    · next h =>
      refine ⟨10, by omega, fun acc => ?_⟩
      simp [parseDigitsGo, isDigitC]
      omega
    · next h =>
      obtain ⟨k, hk, hgo⟩ := ih (n / 10) (Nat.div_lt_self (by omega) (by omega))
      refine ⟨k * 10, by omega, fun acc => ?_⟩
      rw [parseDigitsGo_append, hgo]
      have h10 : n % 10 < 10 := Nat.mod_lt _ (by omega)
      simp [parseDigitsGo, isDigitC]
      constructor
      · omega
      · have : acc * (k * 10) + n = (acc * k + n / 10) * 10 + (n % 10) := by
          have := Nat.div_add_mod n 10
          ring_nf
          omega
        omega

theorem parseDigitsRest_cons_digit (acc c : Nat) (cs : List Nat)
    (h : isDigitC c = true) :
    parseDigitsRest acc (c :: cs) = parseDigitsRest (acc * 10 + (c - 48)) cs := by
  rw [parseDigitsRest.eq_def]
  simp [h]

theorem parseDigitsRest_eq_go (s : List Nat) (h : ∀ c ∈ s, 48 ≤ c ∧ c ≤ 57) :
    ∀ acc, parseDigitsRest acc s = parseDigitsGo acc s := by
  induction s with
  | nil => intro acc; rfl
  | cons c cs ih =>
    intro acc
    have hc := h c (List.mem_cons_self c cs)
    have hcd : isDigitC c = true := by
      simp only [isDigitC, Bool.and_eq_true, decide_eq_true_eq]
      omega
    rw [parseDigitsRest_cons_digit acc c cs hcd, parseDigitsGo, if_pos hcd,
      ih (fun d hd => h d (List.mem_cons_of_mem c hd))]

theorem parseDigits_natToChars (n : Nat) :
    parseDigits (natToChars n) = some n := by
  obtain ⟨k, -, hgo⟩ := parseDigitsGo_natToChars n
  cases h : natToChars n with
  | nil => exact absurd h (natToChars_ne_nil n)
  | cons c cs =>
    have hdigs := natToChars_digits n
    rw [h] at hdigs
    have hc := hdigs c (List.mem_cons_self c cs)
    have hcd : isDigitC c = true := by
      simp only [isDigitC, Bool.and_eq_true, decide_eq_true_eq]
      omega
    rw [parseDigits, if_pos hcd,
      parseDigitsRest_eq_go cs (fun d hd => hdigs d (List.mem_cons_of_mem c hd)) (c - 48)]
    have h0 : parseDigitsGo 0 (c :: cs) = parseDigitsGo (c - 48) cs := by
      rw [parseDigitsGo, if_pos hcd]
      norm_num
    rw [← h0, ← h, hgo]
    simp

theorem digit_not_space (c : Nat) (h : 48 ≤ c ∧ c ≤ 57) : isSpaceC c = false := by
  simp only [isSpaceC, Bool.or_eq_false_iff, beq_eq_false_iff_ne, ne_eq]
  omega

theorem intToChars_ne_nil (i : Int) : intToChars i ≠ [] := by
  rw [intToChars]
  split
  · simp
  · exact natToChars_ne_nil _

theorem getLast?_cons_of_ne_nil (a : Nat) (l : List Nat) (h : l ≠ []) :
    (a :: l).getLast? = l.getLast? := by
  cases l with
  | nil => exact absurd rfl h
  | cons b t => rw [List.getLast?_cons_cons]

theorem intToChars_head_not_space (i : Int) :
    ∀ c, (intToChars i).head? = some c → isSpaceC c = false := by
  intro c hc
  rw [intToChars] at hc
  split at hc
  · simp only [List.head?_cons, Option.some.injEq] at hc
    simp [← hc, isSpaceC]
  · have hd := natToChars_digits _ c (List.mem_of_mem_head? (Option.mem_def.mpr hc))
    simp only [isSpaceC, Bool.or_eq_false_iff, beq_eq_false_iff_ne, ne_eq]
    omega

theorem intToChars_last_digit (i : Int) :
    ∀ c, (intToChars i).getLast? = some c → 48 ≤ c ∧ c ≤ 57 := by
  intro c hc
  rw [intToChars] at hc
  split at hc
  · rw [getLast?_cons_of_ne_nil _ _ (natToChars_ne_nil _)] at hc
    exact natToChars_digits _ c (List.mem_of_mem_getLast? (Option.mem_def.mpr hc))
  · exact natToChars_digits _ c (List.mem_of_mem_getLast? (Option.mem_def.mpr hc))

/-!  `strip` leaves a string with non-whitespace endpoints unchanged. -/

theorem dropWhile_eq_self_of_head (l : List Nat)
    (h : ∀ c, l.head? = some c → isSpaceC c = false) :
    l.dropWhile isSpaceC = l := by
  cases l with
  | nil => rfl
  | cons a t =>
    rw [List.dropWhile_cons, if_neg]
    rw [h a rfl]
    simp

theorem strip_eq_self (l : List Nat)
    (h1 : ∀ c, l.head? = some c → isSpaceC c = false)
    (h2 : ∀ c, l.getLast? = some c → isSpaceC c = false) :
    strip l = l := by
  rw [strip, dropWhile_eq_self_of_head l h1, dropWhile_eq_self_of_head, List.reverse_reverse]
  intro c hc
  rw [List.head?_reverse] at hc
  exact h2 c hc

theorem strip_nil : strip ([] : List Nat) = [] := rfl

/-- Written numerals contain no whitespace, so `int`'s stripping leaves
them unchanged. -/
theorem strip_intToChars (i : Int) : strip (intToChars i) = intToChars i :=
  strip_eq_self _ (intToChars_head_not_space i)
    (fun c hc => digit_not_space c (intToChars_last_digit i c hc))

theorem parseInt_intToChars (i : Int) : parseInt (intToChars i) = some i := by
  rw [parseInt, strip_intToChars, intToChars]
  split
  · next h =>
    have heq : parseIntCore (45 :: natToChars i.natAbs) =
        (parseDigits (natToChars i.natAbs)).map (fun n => -(n : Int)) := rfl
    rw [heq, parseDigits_natToChars]
    have habs : (i.natAbs : Int) = -i := by omega
    simp [habs]
  · next h =>
    cases hn : natToChars i.toNat with
    | nil => exact absurd hn (natToChars_ne_nil _)
    | cons c cs =>
      have hc : 48 ≤ c ∧ c ≤ 57 := natToChars_digits _ c (hn ▸ List.mem_cons_self ..)
      rw [parseIntCore]
      rw [if_neg (by omega), if_neg (by omega), ← hn, parseDigits_natToChars]
      simp
      omega

/-!  ## C9: coordinate round trip -/

/-- C9: decoding the encoding of any in-domain (file, rank) pair returns
the pair: for 1 ≤ x ≤ 26 and 1 ≤ y ≤ 99,
`location2index (index2location x y) = some (x, y)`. -/
theorem location_roundtrip (x y : Int) (hx1 : 1 ≤ x) (hx2 : x ≤ 26)
    (hy1 : 1 ≤ y) (hy2 : y ≤ 99) :
    location2index (index2location x y) = some (x, y) := by
  rw [index2location, location2index, parseInt_intToChars]
  have hc : ((x + 96).toNat : Int) = x + 96 := by omega
  have : lowerC (x + 96).toNat = (x + 96).toNat := by
    rw [lowerC, if_neg]
    simp only [Bool.and_eq_true, decide_eq_true_eq, not_and]
    omega
  rw [Option.map_some', this]
  congr 2
  rw [hc]
  omega

/-- Witness for `location_roundtrip` at (3, 42). -/
theorem location_roundtrip_witness :
    location2index (index2location 3 42) = some (3, 42) :=
  location_roundtrip 3 42 (by decide) (by decide) (by decide) (by decide)

/-!  ## C8: the coordinate decoder does not validate the lead character -/

/-- C8 fails as stated: decoding "12" (codepoints 49, 50), whose first
character is not a letter, does not fail — it returns the coordinate
(-47, 2), because `location2index` feeds the lead character through
`ord(...) - ord("a") + 1` without any validation. -/
theorem location2index_nonletter_cex :
    location2index [49, 50] = some (-47, 2) ∧ location2index [49, 50] ≠ none := by
  decide

/-- C8 amended: the decoder fails exactly when the string is empty or the
remainder after the first character is rejected by `int(...)` — which
strips surrounding whitespace, accepts an optional sign and allows single
underscores between digits; the lead character is never validated. -/
theorem location2index_fail_iff (s : List Nat) :
    location2index s = none ↔ (s = [] ∨ parseInt s.tail = none) := by
  cases s with
  | nil => simp [location2index]
  | cons c rest => simp [location2index]

/-!  ## The Bishop's ray walk -/

theorem pathClear_iff (B : Board) (sx sy : Int) :
    ∀ (n : Nat) (x y : Int),
      (pathClear B x y sx sy n = true ↔
        ∀ i : Nat, 1 ≤ i → i ≤ n →
          is_piece_at (x + i * sx) (y + i * sy) B = false) := by
  intro n
  induction n with
  | zero => intro x y; simp [pathClear]; omega
  | succ m ih =>
    intro x y
    rw [pathClear]
    split
    · next hocc =>
      constructor
      · intro h; exact absurd h (by simp)
      · intro h
        exfalso
        have h1 := h 1 (by omega) (by omega)
        rw [Nat.cast_one, one_mul, one_mul] at h1
        rw [h1] at hocc
        exact absurd hocc (by simp)
    · next hocc =>
      rw [ih (x + sx) (y + sy)]
      constructor
      · intro h i h1 h2
        match i, h1 with
        | 1, _ => simpa using Bool.of_not_eq_true hocc
        | (j + 2), _ =>
          have hstep := h (j + 1) (by omega) (by omega)
          have hxeq : x + sx + (↑(j + 1) : Int) * sx = x + (↑(j + 2) : Int) * sx := by
            push_cast; ring
          have hyeq : y + sy + (↑(j + 1) : Int) * sy = y + (↑(j + 2) : Int) * sy := by
            push_cast; ring
          rw [hxeq, hyeq] at hstep
          exact hstep
      · intro h i h1 h2
        have hstep := h (i + 1) (by omega) (by omega)
        have hxeq : x + (↑(i + 1) : Int) * sx = x + sx + (↑i : Int) * sx := by
          push_cast; ring
        have hyeq : y + (↑(i + 1) : Int) * sy = y + sy + (↑i : Int) * sy := by
          push_cast; ring
        rw [hxeq, hyeq] at hstep
        exact hstep

/-- Characterization of `Bishop.can_reach`: in bounds, a different square,
diagonal, and no piece on any square strictly between source and
destination. -/
theorem can_reach_bishop_char (p : Piece) (x y : Int) (B : Board)
    (hk : p.kind = .bishop) :
    can_reach p x y B = true ↔
      ((1 ≤ x ∧ x ≤ B.1 ∧ 1 ≤ y ∧ y ≤ B.1) ∧
       (x, y) ≠ (p.pos_x, p.pos_y) ∧
       (p.pos_x - x).natAbs = (p.pos_y - y).natAbs ∧
       ∀ i : Nat, 1 ≤ i → i < (p.pos_x - x).natAbs →
         is_piece_at (p.pos_x + i * stepDir p.pos_x x)
           (p.pos_y + i * stepDir p.pos_y y) B = false) := by
  obtain ⟨k, px, py, s⟩ := p
  change k = PieceKind.bishop at hk
  subst hk
  simp only [can_reach]
  split
  · next hb =>
    constructor
    · intro h; exact absurd h (by simp)
    · rintro ⟨⟨h1, h2, h3, h4⟩, -⟩
      exfalso
      simp only [Bool.not_eq_true', Bool.and_eq_false_iff, decide_eq_false_iff_not,
        not_le] at hb
      rcases hb with ((hb | hb) | hb) | hb <;> omega
  · next hb =>
    split
    · next hsame =>
      simp only [Bool.and_eq_true, beq_iff_eq] at hsame
      constructor
      · intro h; exact absurd h (by simp)
      · rintro ⟨-, hne, -⟩
        exact absurd (by rw [hsame.1, hsame.2] : (x, y) = (px, py)) hne
    · next hsame =>
      split
      · next hdiag =>
        simp only [bne_iff_ne, ne_eq] at hdiag
        constructor
        · intro h; exact absurd h (by simp)
        · rintro ⟨-, -, hd, -⟩; exact absurd hd hdiag
      · next hdiag =>
        simp only [Bool.not_eq_true', Bool.and_eq_false_iff, decide_eq_false_iff_not,
          not_le] at hb
        simp only [Bool.not_eq_true, bne_eq_false_iff_eq] at hdiag
        simp only [Bool.not_eq_true, Bool.and_eq_false_iff, beq_eq_false_iff_ne, ne_eq] at hsame
        have hne : (x, y) ≠ (px, py) := by
          intro hc
          rw [Prod.mk.injEq] at hc
          rcases hsame with h | h
          · exact h hc.1.symm
          · exact h hc.2.symm
        have hdx : 1 ≤ (px - x).natAbs := by
          by_contra h0
          push_neg at h0
          have hx : px = x := by omega
          have hy : py = y := by omega
          exact hne (by rw [hx, hy])
        rw [pathClear_iff]
        constructor
        · intro h
          exact ⟨⟨by omega, by omega, by omega, by omega⟩, hne, hdiag,
            fun i h1 h2 => h i h1 (by omega)⟩
        · rintro ⟨-, -, -, h⟩ i h1 h2
          exact h i h1 (by omega)

/-!  ## C4: Bishop.can_reach -/

/-- C4: `Bishop.can_reach` is true iff the destination is in bounds,
differs from the current position, lies on a diagonal
(|Δfile| = |Δrank|), and every square strictly between source and
destination is unoccupied. -/
theorem bishop_can_reach_spec (p : Piece) (x y : Int) (B : Board)
    (hk : p.kind = .bishop) :
    can_reach p x y B = true ↔
      ((1 ≤ x ∧ x ≤ B.1 ∧ 1 ≤ y ∧ y ≤ B.1) ∧
       (x, y) ≠ (p.pos_x, p.pos_y) ∧
       (p.pos_x - x).natAbs = (p.pos_y - y).natAbs ∧
       ∀ i : Nat, 1 ≤ i → i < (p.pos_x - x).natAbs →
         is_piece_at (p.pos_x + i * stepDir p.pos_x x)
           (p.pos_y + i * stepDir p.pos_y y) B = false) :=
  can_reach_bishop_char p x y B hk

/-- Witness for `bishop_can_reach_spec`: the Bishop at (2,2) on an empty
5×5 board and the destination (4,4). -/
theorem bishop_can_reach_spec_witness :
    can_reach ⟨.bishop, 2, 2, true⟩ 4 4 (5, [⟨.bishop, 2, 2, true⟩]) = true ↔
      ((1 ≤ (4 : Int) ∧ (4 : Int) ≤ 5 ∧ 1 ≤ (4 : Int) ∧ (4 : Int) ≤ 5) ∧
       ((4 : Int), (4 : Int)) ≠ (2, 2) ∧
       ((2 : Int) - 4).natAbs = ((2 : Int) - 4).natAbs ∧
       ∀ i : Nat, 1 ≤ i → i < ((2 : Int) - 4).natAbs →
         is_piece_at (2 + i * stepDir 2 4) (2 + i * stepDir 2 4)
           (5, [⟨.bishop, 2, 2, true⟩]) = false) :=
  bishop_can_reach_spec ⟨.bishop, 2, 2, true⟩ 4 4 (5, [⟨.bishop, 2, 2, true⟩]) rfl

/-!  ## C10: checkmate and stalemate are mutually exclusive -/

/-- C10: `is_checkmate` and `is_stalemate` are never both true:
checkmate requires `is_check` true while stalemate requires it false. -/
theorem checkmate_stalemate_exclusive (side : Bool) (B : Board)
    (h : is_checkmate side B = some true) : is_stalemate side B = some false := by
  rw [is_checkmate] at h
  rw [is_stalemate]
  cases hc : is_check side B with
  | none => rw [hc] at h; exact absurd h (by simp)
  | some c =>
    rw [hc] at h
    cases c with
    | false => exact absurd h (by simp)
    | true => rfl

/-- Witness: on the checkmate board, Black is checkmated and hence (by the
theorem) not stalemated. -/
theorem checkmate_stalemate_exclusive_witness :
    is_checkmate false mateBoard = some true ∧
      is_stalemate false mateBoard = some false :=
  ⟨by decide, checkmate_stalemate_exclusive false mateBoard (by decide)⟩

/-!  ## C1: can_move_to -/

theorem map_not_eq_some_true (o : Option Bool) :
    (o.map (fun c => !c) = some true) ↔ o = some false := by
  cases o with
  | none => simp
  | some b => cases b <;> simp

theorem same_side_at_eq_false_iff (p : Piece) (x y : Int) (B : Board) :
    same_side_at p x y B = false ↔
      ∀ q, piece_at x y B = some q → q.side ≠ p.side := by
  rw [same_side_at]
  cases hpa : piece_at x y B with
  | none =>
    have hf : is_piece_at x y B = false := (piece_at_eq_none_iff x y B).mp hpa
    simp [hf]
  | some q =>
    have ht : is_piece_at x y B = true := (piece_at_isSome_iff x y B).mp ⟨q, hpa⟩
    simp only [ht, if_true, beq_eq_false_iff_ne, ne_eq]
    constructor
    · intro hq q' hq'
      injection hq' with h
      exact h ▸ hq
    · intro hall
      exact hall q rfl

/-- C1: `can_move_to` returns true iff the destination is in bounds,
differs from the current position, `can_reach` holds, the destination is
empty or occupied by the opposing side, and the board after the
hypothetical `move_to` does not leave the mover's own side in check
(the last conjunct written as `is_check ... = some false`, which also
rules out the `MissingKingError` path, on which `can_move_to` propagates
the exception rather than returning). -/
theorem can_move_to_spec (p : Piece) (x y : Int) (B : Board) :
    can_move_to p x y B = some true ↔
      ((1 ≤ x ∧ x ≤ B.1 ∧ 1 ≤ y ∧ y ≤ B.1) ∧
       (x, y) ≠ (p.pos_x, p.pos_y) ∧
       can_reach p x y B = true ∧
       (∀ q, piece_at x y B = some q → q.side ≠ p.side) ∧
       is_check p.side (move_to p x y B) = some false) := by
  obtain ⟨k, px, py, s⟩ := p
  cases k with
  | bishop =>
    simp only [can_move_to]
    split
    · next hcr =>
      simp only [Bool.not_eq_true', Bool.not_eq_false] at hcr
      constructor
      · intro h; exact absurd h (by simp)
      · rintro ⟨-, -, hcr2, -⟩
        rw [hcr] at hcr2
        exact absurd hcr2 (by simp)
    · next hcr =>
      simp only [Bool.not_eq_true, Bool.not_eq_false'] at hcr
      split
      · next hss =>
        constructor
        · intro h; exact absurd h (by simp)
        · rintro ⟨-, -, -, hok, -⟩
          rw [(same_side_at_eq_false_iff _ x y B).mpr hok] at hss
          exact absurd hss (by simp)
      · next hss =>
        rw [map_not_eq_some_true]
        have hss' : same_side_at ⟨.bishop, px, py, s⟩ x y B = false :=
          Bool.not_eq_true _ ▸ Bool.of_not_eq_true hss
        have hok := (same_side_at_eq_false_iff ⟨.bishop, px, py, s⟩ x y B).mp hss'
        have hchar := (can_reach_bishop_char ⟨.bishop, px, py, s⟩ x y B rfl).mp hcr
        constructor
        · intro hchk
          exact ⟨hchar.1, hchar.2.1, hcr, hok, hchk⟩
        · rintro ⟨-, -, -, -, hchk⟩
          exact hchk
  | king =>
    simp only [can_move_to]
    split
    · next hb =>
      simp only [Bool.not_eq_true', Bool.and_eq_false_iff, decide_eq_false_iff_not,
        not_le] at hb
      constructor
      · intro h; exact absurd h (by simp)
      · rintro ⟨⟨h1, h2, h3, h4⟩, -⟩
        exfalso
        rcases hb with ((hb | hb) | hb) | hb <;> omega
    · next hb =>
      split
      · next hsame =>
        simp only [Bool.and_eq_true, beq_iff_eq] at hsame
        constructor
        · intro h; exact absurd h (by simp)
        · rintro ⟨-, hne, -⟩
          exact absurd (by rw [hsame.1, hsame.2] : (x, y) = (px, py)) hne
      · next hsame =>
        split
        · next hmax =>
          constructor
          · intro h; exact absurd h (by simp)
          · rintro ⟨-, -, hcr, -⟩
            simp only [can_reach, Bool.and_eq_true, decide_eq_true_eq] at hcr
            exact absurd hmax (not_lt.mpr (Nat.max_le.mpr ⟨hcr.1, hcr.2⟩))
        · next hmax =>
          split
          · next hss =>
            constructor
            · intro h; exact absurd h (by simp)
            · rintro ⟨-, -, -, hok, -⟩
              rw [(same_side_at_eq_false_iff _ x y B).mpr hok] at hss
              exact absurd hss (by simp)
          · next hss =>
            rw [map_not_eq_some_true]
            simp only [Bool.not_eq_true', Bool.not_eq_false, Bool.and_eq_true,
              decide_eq_true_eq] at hb
            simp only [Bool.and_eq_true, beq_iff_eq, not_and] at hsame
            rw [not_lt] at hmax
            have hss' : same_side_at ⟨.king, px, py, s⟩ x y B = false :=
              Bool.not_eq_true _ ▸ Bool.of_not_eq_true hss
            have hok := (same_side_at_eq_false_iff ⟨.king, px, py, s⟩ x y B).mp hss'
            obtain ⟨⟨⟨h1, h2⟩, h3⟩, h4⟩ := hb
            have hne : (x, y) ≠ (px, py) := by
              intro hc
              rw [Prod.mk.injEq] at hc
              exact hsame hc.1.symm hc.2.symm
            have hcr : can_reach ⟨.king, px, py, s⟩ x y B = true := by
              simp only [can_reach, Bool.and_eq_true, decide_eq_true_eq]
              exact ⟨le_of_max_le_left hmax, le_of_max_le_right hmax⟩
            constructor
            · intro hchk
              exact ⟨⟨h1, h2, h3, h4⟩, hne, hcr, hok, hchk⟩
            · rintro ⟨-, -, -, -, hchk⟩
              exact hchk

/-- Witness for `can_move_to_spec`: the White King capturing the Black
Bishop on `kingTestBoard` (the scenario of `test_king_can_move_to`). -/
theorem can_move_to_spec_witness :
    can_move_to ⟨.king, 2, 2, true⟩ 3 3 kingTestBoard = some true ↔
      ((1 ≤ (3 : Int) ∧ (3 : Int) ≤ 5 ∧ 1 ≤ (3 : Int) ∧ (3 : Int) ≤ 5) ∧
       ((3 : Int), (3 : Int)) ≠ (2, 2) ∧
       can_reach ⟨.king, 2, 2, true⟩ 3 3 kingTestBoard = true ∧
       (∀ q, piece_at 3 3 kingTestBoard = some q → q.side ≠ true) ∧
       is_check true (move_to ⟨.king, 2, 2, true⟩ 3 3 kingTestBoard) = some false) :=
  can_move_to_spec ⟨.king, 2, 2, true⟩ 3 3 kingTestBoard

/-!  ## C3: is_check -/

/-- C3: `is_check` fails (with the missing-King error, modelled as `none`)
exactly when the board holds no King of the queried side; and when a King
is found, it returns true iff some piece of the opposing side `can_reach`
that King's coordinates. -/
theorem is_check_spec (side : Bool) (B : Board) :
    (is_check side B = none ↔ ∀ p ∈ B.2, ¬(p.kind = .king ∧ p.side = side)) ∧
    (∀ k, B.2.find? (fun q => q.kind == .king && q.side == side) = some k →
      (is_check side B = some true ↔
        ∃ q ∈ B.2, q.side ≠ side ∧ can_reach q k.pos_x k.pos_y B = true)) := by
  constructor
  · rw [is_check]
    cases hf : B.2.find? (fun q => q.kind == .king && q.side == side) with
    | none =>
      rw [List.find?_eq_none] at hf
      simp only [true_iff]
      intro p hp
      have hnp := hf p hp
      simp only [Bool.and_eq_true, beq_iff_eq] at hnp
      exact hnp
    | some k =>
      have hkk := List.find?_some hf
      have hmem := List.mem_of_find?_eq_some hf
      simp only [Bool.and_eq_true, beq_iff_eq] at hkk
      constructor
      · intro h; exact absurd h (by simp)
      · intro hall; exact absurd hkk (hall k hmem)
  · intro k hk
    rw [is_check, hk]
    simp only [Option.some.injEq, List.any_eq_true, Bool.and_eq_true, bne_iff_ne,
      ne_eq]

/-- Witness for `is_check_spec`: on `kingTestBoard` the White King at
(2,2) is attacked by the Black Bishop at (3,3). -/
theorem is_check_spec_witness :
    is_check true kingTestBoard = some true :=
  ((is_check_spec true kingTestBoard).2 ⟨.king, 2, 2, true⟩ (by decide)).mpr
    ⟨⟨.bishop, 3, 3, false⟩, by decide, by decide, by decide⟩

/-!  ## C5: is_checkmate -/

theorem is_check_ne_none (side : Bool) (B : Board)
    (h : ∃ k ∈ B.2, k.kind = .king ∧ k.side = side) : is_check side B ≠ none := by
  obtain ⟨k, hmem, hkind, hside⟩ := h
  rw [is_check]
  cases hf : B.2.find? (fun q => q.kind == .king && q.side == side) with
  | none =>
    rw [List.find?_eq_none] at hf
    exact absurd (by simp [hkind, hside]) (hf k hmem)
  | some king => simp

theorem is_check_some_king (side : Bool) (B : Board) (c : Bool)
    (h : is_check side B = some c) : ∃ k ∈ B.2, k.kind = .king ∧ k.side = side := by
  rw [is_check] at h
  cases hf : B.2.find? (fun q => q.kind == .king && q.side == side) with
  | none => rw [hf] at h; exact absurd h (by simp)
  | some k =>
    have hkk := List.find?_some hf
    simp only [Bool.and_eq_true, beq_iff_eq] at hkk
    exact ⟨k, List.mem_of_find?_eq_some hf, hkk⟩

/-- A hypothetical move by a piece of `side` never removes `side`'s King:
the mover is replaced by a piece of the same side, and the only piece
possibly captured is (by the `same_side_at` guard) of the other side. -/
theorem king_survives_move (p : Piece) (x y : Int) (B : Board) (k : Piece)
    (hk : k ∈ B.2) (hkind : k.kind = .king) (hside : k.side = p.side)
    (hss : same_side_at p x y B = false) :
    ∃ q ∈ (move_to p x y B).2, q.kind = .king ∧ q.side = p.side := by
  cases hpk : p.kind with
  | king =>
    refine ⟨new_piece p x y, ?_, by simp [new_piece, hpk], by simp [new_piece]⟩
    simp [move_to]
  | bishop =>
    have hkp : k ≠ p := fun h => by rw [h, hpk] at hkind; cases hkind
    refine ⟨k, ?_, hkind, hside⟩
    rw [move_to]
    simp only [List.mem_append]
    left
    have hkf : k ∈ B.2.filter (fun q => q ≠ p) :=
      List.mem_filter.mpr ⟨hk, by simp [hkp]⟩
    split
    · next hocc =>
      cases hpa : piece_at x y B with
      | none => simpa [hpa] using hkf
      | some t =>
        have hts := (same_side_at_eq_false_iff p x y B).mp hss t hpa
        have hkt : k ≠ t := fun h => hts (by rw [← h, hside])
        simp only [hpa]
        exact (List.mem_erase_of_ne hkt).mpr hkf
    · next hocc => exact hkf

/-- As long as the moving side still has a King on the board,
`can_move_to` cannot raise (the only exception source is `is_check` on the
hypothetical board, and the King survives every hypothetical own move). -/
theorem can_move_to_ne_none (p : Piece) (x y : Int) (B : Board)
    (hking : ∃ k ∈ B.2, k.kind = .king ∧ k.side = p.side) :
    can_move_to p x y B ≠ none := by
  obtain ⟨k, hmem, hkind, hside⟩ := hking
  have main : ∀ (hss : same_side_at p x y B = false),
      (is_check p.side (move_to p x y B)).map (fun c => !c) ≠ none := by
    intro hss
    have hsurv := king_survives_move p x y B k hmem hkind hside hss
    have hnn := is_check_ne_none p.side (move_to p x y B) hsurv
    cases hc : is_check p.side (move_to p x y B) with
    | none => exact absurd hc hnn
    | some c => simp
  obtain ⟨pk, px, py, s⟩ := p
  cases pk with
  | bishop =>
    simp only [can_move_to]
    split
    · simp
    · split
      · simp
      · next hss => exact main (Bool.not_eq_true _ ▸ Bool.of_not_eq_true hss)
  | king =>
    simp only [can_move_to]
    split
    · simp
    · split
      · simp
      · split
        · simp
        · split
          · simp
          · next hss => exact main (Bool.not_eq_true _ ▸ Bool.of_not_eq_true hss)

theorem scanCoords_eq_some_false_iff (p : Piece) (B : Board) (l : List (Int × Int)) :
    scanCoords p B l = some false ↔
      ∀ c ∈ l, can_move_to p c.1 c.2 B = some false := by
  induction l with
  | nil => simp [scanCoords]
  | cons c rest ih =>
    rw [scanCoords]
    cases hm : can_move_to p c.1 c.2 B with
    | none =>
      constructor
      · intro h; exact absurd h (by simp)
      · intro h
        exact absurd (h c (List.mem_cons_self c rest)) (by rw [hm]; simp)
    | some b =>
      cases b
      · simp only [ih]
        constructor
        · intro h q hq
          rcases List.mem_cons.mp hq with rfl | hq'
          · exact hm
          · exact h q hq'
        · intro h q hq
          exact h q (List.mem_cons_of_mem c hq)
      · constructor
        · intro h; exact absurd h (by simp)
        · intro h
          exact absurd (h c (List.mem_cons_self c rest)) (by rw [hm]; simp)

theorem anyMove_eq_some_false_iff (side : Bool) (B : Board) (l : List Piece) :
    anyMove side B l = some false ↔
      ∀ p ∈ l, p.side = side → scanCoords p B (coordsList B.1) = some false := by
  induction l with
  | nil => simp [anyMove]
  | cons p rest ih =>
    rw [anyMove]
    by_cases hs : p.side = side
    · rw [if_pos (by simp [hs])]
      cases hm : scanCoords p B (coordsList B.1) with
      | none =>
        constructor
        · intro h; exact absurd h (by simp)
        · intro h
          exact absurd (h p (List.mem_cons_self p rest) hs) (by rw [hm]; simp)
      | some b =>
        cases b
        · rw [ih]
          constructor
          · intro h q hq hqs
            rcases List.mem_cons.mp hq with rfl | hq'
            · exact hm
            · exact h q hq' hqs
          · intro h q hq hqs
            exact h q (List.mem_cons_of_mem p hq) hqs
        · constructor
          · intro h; exact absurd h (by simp)
          · intro h
            exact absurd (h p (List.mem_cons_self p rest) hs) (by rw [hm]; simp)
    · rw [if_neg (by simp [hs]), ih]
      constructor
      · intro h q hq hqs
        rcases List.mem_cons.mp hq with rfl | hq'
        · exact absurd hqs hs
        · exact h q hq' hqs
      · intro h q hq hqs
        exact h q (List.mem_cons_of_mem p hq) hqs

theorem mem_coordsList (n : Int) (c : Int × Int) :
    c ∈ coordsList n ↔ 1 ≤ c.1 ∧ c.1 ≤ n ∧ 1 ≤ c.2 ∧ c.2 ≤ n := by
  obtain ⟨cx, cy⟩ := c
  simp only [coordsList, List.mem_flatMap, List.mem_map, List.mem_range, Prod.mk.injEq,
    Int.ofNat_eq_natCast]
  constructor
  · rintro ⟨i, hi, j, hj, hx, hy⟩
    omega
  · rintro ⟨h1, h2, h3, h4⟩
    exact ⟨(cx - 1).toNat, by omega, (cy - 1).toNat, by omega, by omega, by omega⟩

/-- C5: `is_checkmate` is false whenever `is_check` is false; when
`is_check` is true it returns true iff no piece of the side has any
in-bounds destination with `can_move_to` true; and on the concrete
checkmate board (White King (2,5), White Bishop (5,5), Black King (2,3),
Black Bishops (5,3) and (1,2), White Bishops (3,1) and (4,1), size 5)
Black is checkmated. -/
theorem is_checkmate_spec :
    (∀ side B, is_check side B = some false → is_checkmate side B = some false) ∧
    (∀ side B, is_check side B = some true →
      (is_checkmate side B = some true ↔
        ∀ p ∈ B.2, p.side = side → ∀ x y : Int,
          1 ≤ x → x ≤ B.1 → 1 ≤ y → y ≤ B.1 →
            can_move_to p x y B ≠ some true)) ∧
    is_checkmate false mateBoard = some true := by
  refine ⟨?_, ?_, by decide⟩
  · intro side B h
    rw [is_checkmate, h]
  · intro side B h
    rw [is_checkmate, h, map_not_eq_some_true, anyMove_eq_some_false_iff]
    constructor
    · intro hall p hp hps x y h1 h2 h3 h4
      have hc := (scanCoords_eq_some_false_iff p B _).mp (hall p hp hps) (x, y)
        ((mem_coordsList B.1 (x, y)).mpr ⟨h1, h2, h3, h4⟩)
      rw [hc]
      simp
    · intro hall p hp hps
      rw [scanCoords_eq_some_false_iff]
      intro c hc
      rw [mem_coordsList] at hc
      have hne := hall p hp hps c.1 c.2 hc.1 hc.2.1 hc.2.2.1 hc.2.2.2
      obtain ⟨k, hk, hkk, hks⟩ := is_check_some_king side B true h
      have hnn := can_move_to_ne_none p c.1 c.2 B ⟨k, hk, hkk, by rw [hps]; exact hks⟩
      cases hcm : can_move_to p c.1 c.2 B with
      | none => exact absurd hcm hnn
      | some b =>
        cases b
        · rfl
        · exact absurd hcm hne

/-- Witness for `is_checkmate_spec`: White is not in check on the
checkmate board, hence not checkmated. -/
theorem is_checkmate_spec_witness :
    is_check true mateBoard = some false ∧
      is_checkmate true mateBoard = some false :=
  ⟨by decide, is_checkmate_spec.1 true mateBoard (by decide)⟩

/-!  ## C6: move_to -/

theorem nodup_of_posDistinct (l : List Piece)
    (h : l.Pairwise (fun a b => (a.pos_x, a.pos_y) ≠ (b.pos_x, b.pos_y))) :
    l.Nodup :=
  h.imp fun hpos hab => hpos (by rw [hab])

theorem filter_ne_eq_erase (l : List Piece) (p : Piece) (h : l.Nodup) :
    l.filter (fun q => q ≠ p) = l.erase p := by
  rw [h.erase_eq_filter]
  congr 1
  funext q
  simp only [bne, decide_not]
  rfl

theorem posDistinct_symm :
    Symmetric (fun a b : Piece => (a.pos_x, a.pos_y) ≠ (b.pos_x, b.pos_y)) :=
  fun _ _ h => fun heq => h heq.symm

/-- C6: a move preserves the board size and produces exactly the original
pieces with the mover removed, the occupant of the destination (if any)
removed, and a new piece of the mover's kind and side at the destination;
the mover's old square is emptied, only the new piece occupies the
destination, and the piece count decreases by one exactly on a capture.
Hypotheses: the mover is on the board, pieces occupy pairwise distinct
positions, and the destination differs from the mover's square (all
guaranteed by the legality the caller must establish). -/
theorem move_to_spec (p : Piece) (x y : Int) (B : Board)
    (hmem : p ∈ B.2)
    (hdist : B.2.Pairwise (fun a b => (a.pos_x, a.pos_y) ≠ (b.pos_x, b.pos_y)))
    (hne : (x, y) ≠ (p.pos_x, p.pos_y)) :
    (move_to p x y B).1 = B.1 ∧
    (match piece_at x y B with
     | some t =>
         (move_to p x y B).2.Perm (new_piece p x y :: (B.2.erase p).erase t) ∧
         (move_to p x y B).2.length + 1 = B.2.length
     | none =>
         (move_to p x y B).2.Perm (new_piece p x y :: B.2.erase p) ∧
         (move_to p x y B).2.length = B.2.length) ∧
    is_piece_at p.pos_x p.pos_y (move_to p x y B) = false ∧
    ∀ q ∈ (move_to p x y B).2, (q.pos_x, q.pos_y) = (x, y) → q = new_piece p x y := by
  have hnd : B.2.Nodup := nodup_of_posDistinct B.2 hdist
  have hfe := filter_ne_eq_erase B.2 p hnd
  have hlen := List.length_erase_of_mem hmem
  have hlenpos : 1 ≤ B.2.length := List.length_pos_of_mem hmem
  have hdiffp : ∀ q ∈ B.2, q ≠ p → (q.pos_x, q.pos_y) ≠ (p.pos_x, p.pos_y) :=
    fun q hq hqp => List.Pairwise.forall posDistinct_symm hdist hq hmem hqp
  cases hpa : piece_at x y B with
  | none =>
    have hocc : is_piece_at x y B = false := (piece_at_eq_none_iff x y B).mp hpa
    have hmv : (move_to p x y B).2 = B.2.erase p ++ [new_piece p x y] := by
      rw [move_to]
      simp only [hocc, Bool.false_eq_true, if_false, hfe]
    have hnoxy : ∀ q ∈ B.2, ¬(q.pos_x = x ∧ q.pos_y = y) := by
      intro q hq hqe
      rw [is_piece_at, List.any_eq_false] at hocc
      exact hocc q hq (by simp [hqe.1, hqe.2])
    refine ⟨rfl, ⟨?_, ?_⟩, ?_, ?_⟩
    · rw [hmv]; exact List.perm_append_singleton _ _
    · rw [hmv]; simp only [List.length_append, List.length_singleton]; omega
    · rw [is_piece_at, hmv, List.any_eq_false]
      intro q hq
      simp only [Bool.and_eq_true, beq_iff_eq, not_and]
      intro hqx hqy
      rcases List.mem_append.mp hq with hq' | hq'
      · have hqB : q ∈ B.2 := List.mem_of_mem_erase hq'
        have hqp : q ≠ p := (hnd.mem_erase_iff.mp hq').1
        exact hdiffp q hqB hqp (by rw [hqx, hqy])
      · have hq'' : q = new_piece p x y := List.mem_singleton.mp hq'
        rw [hq''] at hqx hqy
        simp only [new_piece] at hqx hqy
        exact hne (by rw [hqx, hqy])
    · intro q hq hqe
      rw [Prod.mk.injEq] at hqe
      rw [hmv] at hq
      rcases List.mem_append.mp hq with hq' | hq'
      · exact absurd ⟨hqe.1, hqe.2⟩ (hnoxy q (List.mem_of_mem_erase hq'))
      · exact List.mem_singleton.mp hq'
  | some t =>
    obtain ⟨htB, htx, hty⟩ := piece_at_eq_some_facts hpa
    have htp : t ≠ p := by
      intro h
      rw [h] at htx hty
      exact hne (by rw [htx, hty])
    have hocc : is_piece_at x y B = true := (piece_at_isSome_iff x y B).mp ⟨t, hpa⟩
    have hmv : (move_to p x y B).2 = (B.2.erase p).erase t ++ [new_piece p x y] := by
      rw [move_to]
      simp only [hocc, if_true, hpa, hfe]
    have htep : t ∈ B.2.erase p := (List.mem_erase_of_ne htp).mpr htB
    have hlen2 := List.length_erase_of_mem htep
    have hlenp2 : 1 ≤ (B.2.erase p).length := List.length_pos_of_mem htep
    have hdifft : ∀ q ∈ B.2, q ≠ t → (q.pos_x, q.pos_y) ≠ (t.pos_x, t.pos_y) :=
      fun q hq hqt => List.Pairwise.forall posDistinct_symm hdist hq htB hqt
    refine ⟨rfl, ⟨?_, ?_⟩, ?_, ?_⟩
    · rw [hmv]; exact List.perm_append_singleton _ _
    · rw [hmv]; simp only [List.length_append, List.length_singleton]; omega
    · rw [is_piece_at, hmv, List.any_eq_false]
      intro q hq
      simp only [Bool.and_eq_true, beq_iff_eq, not_and]
      intro hqx hqy
      rcases List.mem_append.mp hq with hq' | hq'
      · have hq'' : q ∈ B.2.erase p := List.mem_of_mem_erase hq'
        have hqB : q ∈ B.2 := List.mem_of_mem_erase hq''
        have hqp : q ≠ p := (hnd.mem_erase_iff.mp hq'').1
        exact hdiffp q hqB hqp (by rw [hqx, hqy])
      · have hq'' : q = new_piece p x y := List.mem_singleton.mp hq'
        rw [hq''] at hqx hqy
        simp only [new_piece] at hqx hqy
        exact hne (by rw [hqx, hqy])
    · intro q hq hqe
      rw [Prod.mk.injEq] at hqe
      rw [hmv] at hq
      rcases List.mem_append.mp hq with hq' | hq'
      · have hq'' : q ∈ B.2.erase p := List.mem_of_mem_erase hq'
        have hqt : q ≠ t := ((hnd.erase p).mem_erase_iff.mp hq').1
        have hqB : q ∈ B.2 := List.mem_of_mem_erase hq''
        exact absurd (by rw [hqe.1, hqe.2, htx, hty]) (hdifft q hqB hqt)
      · exact List.mem_singleton.mp hq'

/-- The board of the spec's move-application scenario: a White Bishop at
(4,4) and a Black piece at (3,3) on a 5×5 board. -/
def captureBoard : Board := (5, [⟨.bishop, 4, 4, true⟩, ⟨.bishop, 3, 3, false⟩])

/-- Witness for `move_to_spec`: the White Bishop at (4,4) capturing the
Black piece at (3,3). -/
theorem move_to_spec_witness :
    (move_to ⟨.bishop, 4, 4, true⟩ 3 3 captureBoard).1 = captureBoard.1 ∧
    (match piece_at 3 3 captureBoard with
     | some t =>
         (move_to ⟨.bishop, 4, 4, true⟩ 3 3 captureBoard).2.Perm
           (new_piece ⟨.bishop, 4, 4, true⟩ 3 3 ::
             (captureBoard.2.erase ⟨.bishop, 4, 4, true⟩).erase t) ∧
         (move_to ⟨.bishop, 4, 4, true⟩ 3 3 captureBoard).2.length + 1 =
           captureBoard.2.length
     | none =>
         (move_to ⟨.bishop, 4, 4, true⟩ 3 3 captureBoard).2.Perm
           (new_piece ⟨.bishop, 4, 4, true⟩ 3 3 ::
             captureBoard.2.erase ⟨.bishop, 4, 4, true⟩) ∧
         (move_to ⟨.bishop, 4, 4, true⟩ 3 3 captureBoard).2.length =
           captureBoard.2.length) ∧
    is_piece_at 4 4 (move_to ⟨.bishop, 4, 4, true⟩ 3 3 captureBoard) = false ∧
    ∀ q ∈ (move_to ⟨.bishop, 4, 4, true⟩ 3 3 captureBoard).2,
      (q.pos_x, q.pos_y) = (3, 3) → q = new_piece ⟨.bishop, 4, 4, true⟩ 3 3 :=
  move_to_spec ⟨.bishop, 4, 4, true⟩ 3 3 captureBoard (by decide)
    (by decide) (by decide)

/-!  ## C7: board codec round trip -/

theorem intToChars_no_comma (i : Int) : ∀ c ∈ intToChars i, c ≠ 44 := by
  intro c hc
  rw [intToChars] at hc
  split at hc
  · rcases List.mem_cons.mp hc with rfl | hc'
    · omega
    · have := natToChars_digits _ c hc'
      omega
  · have := natToChars_digits _ c hc
    omega

/-!  Properties of a written piece token, under the file format's
coordinate domain 1 ≤ x ≤ 26 (spec §9: files beyond 26 are outside the
format's domain). -/

theorem pieceToken_ne_nil (p : Piece) : pieceToken p ≠ [] := by
  simp [pieceToken]

theorem kindChar_vals (k : PieceKind) : kindChar k = 75 ∨ kindChar k = 66 := by
  cases k
  · exact Or.inl rfl
  · exact Or.inr rfl

theorem pieceToken_no_comma (p : Piece) (hx1 : 1 ≤ p.pos_x) :
    ∀ c ∈ pieceToken p, c ≠ 44 := by
  intro c hc
  rw [pieceToken] at hc
  rcases List.mem_cons.mp hc with rfl | hc'
  · intro hcontra
    rcases kindChar_vals p.kind with h | h <;> rw [h] at hcontra <;> omega
  · rw [index2location] at hc'
    rcases List.mem_cons.mp hc' with rfl | hc''
    · intro hcontra
      omega
    · exact intToChars_no_comma _ c hc''

theorem pieceToken_head_not_space (p : Piece) :
    ∀ c, (pieceToken p).head? = some c → isSpaceC c = false := by
  intro c hc
  rw [pieceToken, List.head?_cons, Option.some.injEq] at hc
  rcases kindChar_vals p.kind with h | h <;> rw [← hc, h] <;> rfl

theorem pieceToken_last_digit (p : Piece) :
    ∀ c, (pieceToken p).getLast? = some c → 48 ≤ c ∧ c ≤ 57 := by
  intro c hc
  rw [pieceToken, getLast?_cons_of_ne_nil _ _ (by simp [index2location]),
    index2location, getLast?_cons_of_ne_nil _ _ (intToChars_ne_nil _)] at hc
  exact intToChars_last_digit _ c hc

/-!  `splitCS` inverts `intercalateSep` on comma-free tokens. -/

theorem splitCS_cons_ne (c : Nat) (rest : List Nat) (hc : c ≠ 44) :
    splitCS (c :: rest) = consTok c (splitCS rest) := by
  rw [splitCS.eq_def]
  split
  · next heq => cases heq
  · next heq =>
    injection heq with h1 h2
    exact absurd h1.symm (fun hh => hc hh.symm)
  · next h1 h2 =>
    injection h2 with h3 h4
    rw [h3, h4]

theorem splitCS_sep (rest : List Nat) : splitCS (44 :: 32 :: rest) = [] :: splitCS rest := rfl

theorem splitCS_no_comma (t : List Nat) (h : ∀ c ∈ t, c ≠ 44) : splitCS t = [t] := by
  induction t with
  | nil => rfl
  | cons c rest ih =>
    rw [splitCS_cons_ne c rest (h c (List.mem_cons_self c rest)),
      ih (fun d hd => h d (List.mem_cons_of_mem c hd))]
    rfl

theorem splitCS_token_append (t s : List Nat) (h : ∀ c ∈ t, c ≠ 44) :
    splitCS (t ++ 44 :: 32 :: s) = t :: splitCS s := by
  induction t with
  | nil => rw [List.nil_append, splitCS_sep]
  | cons c rest ih =>
    rw [List.cons_append, splitCS_cons_ne c _ (h c (List.mem_cons_self c rest)),
      ih (fun d hd => h d (List.mem_cons_of_mem c hd))]
    rfl

theorem splitCS_intercalateSep (toks : List (List Nat))
    (h : ∀ t ∈ toks, ∀ c ∈ t, c ≠ 44) (hne : toks ≠ []) :
    splitCS (intercalateSep toks) = toks := by
  induction toks with
  | nil => exact absurd rfl hne
  | cons t rest ih =>
    cases rest with
    | nil =>
      rw [show intercalateSep [t] = t from rfl]
      exact splitCS_no_comma t (h t (List.mem_cons_self t []))
    | cons t' rest' =>
      rw [show intercalateSep (t :: t' :: rest') =
            t ++ 44 :: 32 :: intercalateSep (t' :: rest') from rfl,
        splitCS_token_append t _ (h t (List.mem_cons_self t _)),
        ih (fun u hu => h u (List.mem_cons_of_mem t hu)) (by simp)]

/-- General coordinate round trip: any rank, file within the 26-letter
domain. -/
theorem location2index_index2location (x y : Int)
    (hx1 : 1 ≤ x) (hx2 : x ≤ 26) :
    location2index (index2location x y) = some (x, y) := by
  rw [index2location, location2index, parseInt_intToChars]
  have hc : ((x + 96).toNat : Int) = x + 96 := by omega
  have hlow : lowerC (x + 96).toNat = (x + 96).toNat := by
    rw [lowerC, if_neg]
    simp only [Bool.and_eq_true, decide_eq_true_eq, not_and]
    omega
  rw [Option.map_some', hlow]
  congr 2
  rw [hc]
  omega

theorem parseToken_pieceToken (p : Piece) (side : Bool) (hs : p.side = side)
    (hx1 : 1 ≤ p.pos_x) (hx2 : p.pos_x ≤ 26) :
    parseToken side (pieceToken p) = some [p] := by
  obtain ⟨k, px, py, s⟩ := p
  simp only at hs hx1 hx2
  subst hs
  rw [pieceToken, parseToken, location2index_index2location px py hx1 hx2]
  cases k with
  | king => rfl
  | bishop => rfl

theorem parseTokens_map (side : Bool) (l : List Piece)
    (h : ∀ p ∈ l, p.side = side ∧ 1 ≤ p.pos_x ∧ p.pos_x ≤ 26) :
    parseTokens side (l.map pieceToken) = some l := by
  induction l with
  | nil => rfl
  | cons p rest ih =>
    obtain ⟨hs, hx1, hx2⟩ := h p (List.mem_cons_self p rest)
    rw [List.map_cons, parseTokens, parseToken_pieceToken p side hs hx1 hx2,
      ih (fun q hq => h q (List.mem_cons_of_mem p hq))]
    rfl

theorem intercalateSep_ne_nil (ts : List (List Nat))
    (hnn : ∀ t ∈ ts, t ≠ []) (hne : ts ≠ []) : intercalateSep ts ≠ [] := by
  cases ts with
  | nil => exact absurd rfl hne
  | cons t rest =>
    cases rest with
    | nil => exact hnn t (List.mem_cons_self t [])
    | cons t' r => simp [intercalateSep]

theorem intercalateSep_head_not_space (ts : List (List Nat))
    (h : ∀ t ∈ ts, ∀ c, t.head? = some c → isSpaceC c = false)
    (hnn : ∀ t ∈ ts, t ≠ []) :
    ∀ c, (intercalateSep ts).head? = some c → isSpaceC c = false := by
  cases ts with
  | nil => intro c hc; simp [intercalateSep] at hc
  | cons t rest =>
    cases rest with
    | nil => exact h t (List.mem_cons_self t [])
    | cons t' r =>
      intro c hc
      rw [show intercalateSep (t :: t' :: r) =
            t ++ 44 :: 32 :: intercalateSep (t' :: r) from rfl,
        List.head?_append] at hc
      cases ht : t.head? with
      | none => exact absurd (List.head?_eq_none_iff.mp ht) (hnn t (List.mem_cons_self t _))
      | some a =>
        rw [ht] at hc
        simp only [Option.or_some, Option.some.injEq] at hc
        rw [← hc]
        exact h t (List.mem_cons_self t _) a ht

theorem intercalateSep_last_digit (ts : List (List Nat))
    (h : ∀ t ∈ ts, ∀ c, t.getLast? = some c → 48 ≤ c ∧ c ≤ 57)
    (hnn : ∀ t ∈ ts, t ≠ []) :
    ∀ c, (intercalateSep ts).getLast? = some c → 48 ≤ c ∧ c ≤ 57 := by
  induction ts with
  | nil => intro c hc; simp [intercalateSep] at hc
  | cons t rest ih =>
    cases rest with
    | nil => exact h t (List.mem_cons_self t [])
    | cons t' r =>
      intro c hc
      have hinter : intercalateSep (t' :: r) ≠ [] :=
        intercalateSep_ne_nil _ (fun u hu => hnn u (List.mem_cons_of_mem t hu)) (by simp)
      rw [show intercalateSep (t :: t' :: r) =
            t ++ 44 :: 32 :: intercalateSep (t' :: r) from rfl,
        List.getLast?_append,
        getLast?_cons_of_ne_nil _ _ (by simp),
        getLast?_cons_of_ne_nil _ _ hinter] at hc
      cases hl : (intercalateSep (t' :: r)).getLast? with
      | none => exact absurd (List.getLast?_eq_none_iff.mp hl) hinter
      | some a =>
        rw [hl] at hc
        simp only [Option.or_some, Option.some.injEq] at hc
        rw [← hc]
        exact ih (fun u hu => h u (List.mem_cons_of_mem t hu))
          (fun u hu => hnn u (List.mem_cons_of_mem t hu)) a hl

/-- A written (non-empty) piece line survives `strip` unchanged: it starts
with a kind letter and ends with a rank digit. -/
theorem strip_pieceLine (l : List Piece) (hl : l ≠ []) (hx : ∀ p ∈ l, 1 ≤ p.pos_x) :
    strip (intercalateSep (l.map pieceToken)) = intercalateSep (l.map pieceToken) := by
  have hmem : ∀ t ∈ l.map pieceToken, ∃ p ∈ l, t = pieceToken p := by
    intro t ht
    obtain ⟨p, hp, rfl⟩ := List.mem_map.mp ht
    exact ⟨p, hp, rfl⟩
  have hnn : ∀ t ∈ l.map pieceToken, t ≠ [] := by
    intro t ht
    obtain ⟨p, -, rfl⟩ := hmem t ht
    exact pieceToken_ne_nil p
  apply strip_eq_self
  · apply intercalateSep_head_not_space _ _ hnn
    intro t ht c hc
    obtain ⟨p, -, rfl⟩ := hmem t ht
    exact pieceToken_head_not_space p c hc
  · intro c hc
    apply digit_not_space
    revert c hc
    apply intercalateSep_last_digit _ _ hnn
    intro t ht c hc
    obtain ⟨p, -, rfl⟩ := hmem t ht
    exact pieceToken_last_digit p c hc

/-- Parsing the token split of one written piece line recovers exactly its
pieces. -/
theorem parse_pieceLine (l : List Piece) (side : Bool) (hl : l ≠ [])
    (h : ∀ p ∈ l, p.side = side ∧ 1 ≤ p.pos_x ∧ p.pos_x ≤ 26) :
    parseTokens side (splitCS (intercalateSep (l.map pieceToken))) = some l := by
  have hnc : ∀ t ∈ l.map pieceToken, ∀ c ∈ t, c ≠ 44 := by
    intro t ht c hc
    obtain ⟨p, hp, rfl⟩ := List.mem_map.mp ht
    exact pieceToken_no_comma p (h p hp).2.1 c hc
  rw [splitCS_intercalateSep _ hnc (by simpa using hl), parseTokens_map side l h]

theorem read_board_cons (sizeLine : List Nat) (rest : List (List Nat)) :
    read_board (sizeLine :: rest) =
      match parseInt (strip sizeLine) with
      | none => none
      | some size => (parseLines 0 rest).map (fun ps => (size, ps)) := rfl

/-- `read_board` of the lines written by `save_board`: the size is
recovered and the pieces come back as the White pieces followed by the
Black pieces, in their original relative order. -/
theorem read_board_saveLines (B : Board)
    (hx : ∀ p ∈ B.2, 1 ≤ p.pos_x ∧ p.pos_x ≤ 26) :
    read_board (saveLines B) =
      some (B.1, B.2.filter (fun p => p.side) ++ B.2.filter (fun p => !p.side)) := by
  have hsz : strip (intToChars B.1) = intToChars B.1 :=
    strip_eq_self _ (intToChars_head_not_space B.1)
      (fun c hc => digit_not_space c (intToChars_last_digit B.1 c hc))
  have hwside : ∀ p ∈ B.2.filter (fun p => p.side),
      p.side = true ∧ 1 ≤ p.pos_x ∧ p.pos_x ≤ 26 := by
    intro p hp
    obtain ⟨hpB, hps⟩ := List.mem_filter.mp hp
    exact ⟨hps, (hx p hpB).1, (hx p hpB).2⟩
  have hbside : ∀ p ∈ B.2.filter (fun p => !p.side),
      p.side = false ∧ 1 ≤ p.pos_x ∧ p.pos_x ≤ 26 := by
    intro p hp
    obtain ⟨hpB, hps⟩ := List.mem_filter.mp hp
    simp only [Bool.not_eq_true'] at hps
    exact ⟨hps, (hx p hpB).1, (hx p hpB).2⟩
  have hblack : parseLines 1 [intercalateSep ((B.2.filter (fun p => !p.side)).map pieceToken)] =
      some (B.2.filter (fun p => !p.side)) := by
    by_cases hb : B.2.filter (fun p => !p.side) = []
    · rw [hb]
      rfl
    · rw [parseLines]
      have hbne : intercalateSep ((B.2.filter (fun p => !p.side)).map pieceToken) ≠ [] := by
        apply intercalateSep_ne_nil
        · intro t ht
          obtain ⟨p, -, rfl⟩ := List.mem_map.mp ht
          exact pieceToken_ne_nil p
        · simpa using hb
      rw [strip_pieceLine _ hb (fun p hp => (hbside p hp).2.1), if_neg hbne,
        show ((1 : Nat) == 0) = false from rfl,
        parse_pieceLine _ false hb hbside]
      simp [parseLines]
  have hwhite : parseLines 0
      [intercalateSep ((B.2.filter (fun p => p.side)).map pieceToken),
       intercalateSep ((B.2.filter (fun p => !p.side)).map pieceToken)] =
      some (B.2.filter (fun p => p.side) ++ B.2.filter (fun p => !p.side)) := by
    by_cases hw : B.2.filter (fun p => p.side) = []
    · rw [hw]
      show parseLines 0 ([] :: _) = _
      rw [parseLines, if_pos strip_nil, show ((0 : Nat) + 1) = 1 from rfl, hblack]
      simp
    · rw [parseLines]
      have hwne : intercalateSep ((B.2.filter (fun p => p.side)).map pieceToken) ≠ [] := by
        apply intercalateSep_ne_nil
        · intro t ht
          obtain ⟨p, -, rfl⟩ := List.mem_map.mp ht
          exact pieceToken_ne_nil p
        · simpa using hw
      rw [strip_pieceLine _ hw (fun p hp => (hwside p hp).2.1), if_neg hwne,
        show ((0 : Nat) == 0) = true from rfl,
        parse_pieceLine _ true hw hwside,
        show ((0 : Nat) + 1) = 1 from rfl, hblack]
      rfl
  rw [saveLines, read_board_cons, hsz, parseInt_intToChars, hwhite]
  rfl

/-- C7: writing a board with `save_board` and reading the result back with
`read_board` yields `some` board with the same size and a permutation of
the original pieces — the same multiset of (kind, side, coordinate)
triples, since a `Piece` value is exactly such a triple.  The file-format
coordinate domain 1 ≤ file ≤ 26 (spec Data Model and §9) is assumed. -/
theorem board_roundtrip (B : Board)
    (hx : ∀ p ∈ B.2, 1 ≤ p.pos_x ∧ p.pos_x ≤ 26) :
    ∃ ps, read_board (saveLines B) = some (B.1, ps) ∧ ps.Perm B.2 :=
  ⟨_, read_board_saveLines B hx, List.filter_append_perm _ B.2⟩

/-- Witness for `board_roundtrip`: the seven-piece checkmate board round
trips. -/
theorem board_roundtrip_witness :
    ∃ ps, read_board (saveLines mateBoard) = some (mateBoard.1, ps) ∧
      ps.Perm mateBoard.2 :=
  board_roundtrip mateBoard (by decide)

end ChessPuzzle
